import Mathlib

/-!
Verification of the `pbrtree` persistent treap (`src/lib.rs`).

The engine (`Vertreap`, `VertreapNode`, `VertreapIter`) is generic in Rust over
`Item: PartialOrd` and `P: Copy + Ord`.  Both public façades instantiate `Item`
so that the comparison is induced by a key projection into a totally ordered
type (`KV<K, V>` compared by its `k` field for maps, bare `K` for sets), and on
those instantiations `partial_cmp` always returns `Some` of the key comparison.
Accordingly the embedding is parameterised by a projection `key : It → K` into
a `LinearOrder`, and the `panic!()` on an incomparable pair is unreachable.

`Option<Rc<VertreapNode<It, P>>>` is embedded as the inductive `VertreapTree`
(`nil` = `None`, `node v p i l r` = `Some(Rc(VertreapNode { version := v,
priority := p, item := i, left := l, right := r }))`).  `Rc` sharing only
affects memory reuse, never functional behaviour, so it is dropped.  The one
mutable cell, the lineage version counter `VertreapState` (`Cell<u64>`), is
threaded explicitly as a `Nat` together with its `u64` wrap-around, and the
`assert!` failures / arithmetic overflow traps of `append_with_priority` are
embedded as `none` results.
-/

set_option maxHeartbeats 1000000

namespace Pbrtree

/-- Total three-way comparison on a linearly ordered type.  Models Rust
`Ord::cmp` on keys; `KV::partial_cmp` (src/lib.rs:30-40) and `Ord` on bare keys
always return `Some` of exactly this comparison. -/
def cmp3 {α : Type} [LinearOrder α] (a b : α) : Ordering :=
  if a < b then .lt else if a = b then .eq else .gt

/-- Models `Option<Rc<VertreapNode<It, P>>>` (src/lib.rs:425-431): `nil` is
`None`, and `node version priority item left right` is a present, reference
counted `VertreapNode`. -/
inductive VertreapTree (It P : Type) : Type where
  | nil : VertreapTree It P
  | node (version : Nat) (priority : P) (item : It)
      (left right : VertreapTree It P) : VertreapTree It P
  deriving DecidableEq

namespace VertreapTree

variable {It P K : Type}

/-- The `version` field of a present node (`0` for `None`). -/
def ver : VertreapTree It P → Nat
  | .nil => 0
  | .node v _ _ _ _ => v

/-- The `left` field of a present node. -/
def leftT : VertreapTree It P → VertreapTree It P
  | .nil => .nil
  | .node _ _ _ l _ => l

/-- The `right` field of a present node. -/
def rightT : VertreapTree It P → VertreapTree It P
  | .nil => .nil
  | .node _ _ _ _ r => r

/-- The Boolean test `new_child.priority <= self.priority` used by
`VertreapNode::_append` (src/lib.rs:546, 559); the child produced by a
recursive `_append` is always present, so the `nil` case is never exercised. -/
def rootPrioLe [LinearOrder P] : VertreapTree It P → P → Bool
  | .nil, _ => true
  | .node _ pr _ _ _, b => decide (pr ≤ b)

/-- Propositional form of `rootPrioLe`: the root priority (if any) is `≤ b`. -/
def priLe [LinearOrder P] : VertreapTree It P → P → Prop
  | .nil, _ => True
  | .node _ pr _ _ _, b => pr ≤ b

/-- The priority of the root node, if present. -/
def rootPrioOpt : VertreapTree It P → Option P
  | .nil => none
  | .node _ pr _ _ _ => some pr

/-- In-order list of `(priority, item)` payloads of a tree. -/
def inorderPI : VertreapTree It P → List (P × It)
  | .nil => []
  | .node _ p i l r => l.inorderPI ++ (p, i) :: r.inorderPI

/-- In-order list of items, as yielded (in item form) by `VertreapIter`. -/
def inorderItems (t : VertreapTree It P) : List It :=
  t.inorderPI.map (·.2)

/-- In-order list of the present node subtrees themselves (each node of the
tree appears once, in key order), matching the `Rc<VertreapNode>` values the
raw iterator yields. -/
def inorderNodes : VertreapTree It P → List (VertreapTree It P)
  | .nil => []
  | .node v p i l r => l.inorderNodes ++ .node v p i l r :: r.inorderNodes

/-- The number of present nodes in the tree. -/
def numNodes : VertreapTree It P → Nat
  | .nil => 0
  | .node _ _ _ l r => l.numNodes + 1 + r.numNodes

/-- Models `VertreapNode::_find` (src/lib.rs:462-482) together with the `None`
root case of `Vertreap::find` (src/lib.rs:389-394): compare the node's key with
the probe; on `Greater` descend left, on `Less` descend right.  The `version`
argument of `_find` only feeds an `assert!` and is omitted. -/
def find [LinearOrder K] (key : It → K) : VertreapTree It P → K → Option It
  | .nil, _ => none
  | .node _ _ i l r, k =>
    match cmp3 (key i) k with
    | .eq => some i
    | .gt => l.find key k
    | .lt => r.find key k

/-- Models `VertreapNode::_rotate_left` (src/lib.rs:486-507).  The source
`panic!()`s when `right` is `None`; `_append` only rotates a node it has just
built with a present right child, so the fall-through case (returning the
input) is unreachable from any call site. -/
def rotateLeft : VertreapTree It P → Nat → VertreapTree It P
  | .node _ p i l (.node _ rp ri rl rr), newV =>
      .node newV rp ri (.node newV p i l rl) rr
  | t, _ => t

/-- Models `VertreapNode::_rotate_right` (src/lib.rs:509-530); see
`rotateLeft` for the unreachable fall-through case. -/
def rotateRight : VertreapTree It P → Nat → VertreapTree It P
  | .node _ p i (.node _ lp li ll lr) r, newV =>
      .node newV lp li ll (.node newV p i lr r)
  | t, _ => t

/-- Models `VertreapNode::_append` (src/lib.rs:533-568).  The `nil` case is the
`None => leaf` arm that appears identically at the root
(`Vertreap::append_with_priority`, src/lib.rs:407-414) and at the absent-child
positions inside `_append` (src/lib.rs:542-545, 555-558).  Returns the new
subtree and the element-count delta. -/
def append [LinearOrder K] [LinearOrder P] (key : It → K)
    (newV : Nat) (q : P) (x : It) :
    VertreapTree It P → VertreapTree It P × Nat
  | .nil => (.node newV q x .nil .nil, 1)
  | .node _ p i l r =>
    match cmp3 (key x) (key i) with
    | .eq => (.node newV p x l r, 0)
    | .lt =>
      let res := append key newV q x l
      let tmp : VertreapTree It P := .node newV p i res.1 r
      if res.1.rootPrioLe p then (tmp, res.2) else (tmp.rotateRight newV, res.2)
    | .gt =>
      let res := append key newV q x r
      let tmp : VertreapTree It P := .node newV p i l res.1
      if res.1.rootPrioLe p then (tmp, res.2) else (tmp.rotateLeft newV, res.2)

/-- The BST invariant of the spec: at every node, all keys in the left subtree
are below the node's key and all keys in the right subtree are above it. -/
def isBST [LinearOrder K] (key : It → K) : VertreapTree It P → Prop
  | .nil => True
  | .node _ _ i l r =>
      (∀ x ∈ l.inorderItems, key x < key i) ∧
      (∀ x ∈ r.inorderItems, key i < key x) ∧
      l.isBST key ∧ r.isBST key

/-- The max-heap invariant of the spec: every present child's priority is
`≤` its parent's priority. -/
def isHeap [LinearOrder P] : VertreapTree It P → Prop
  | .nil => True
  | .node _ p _ l r => l.priLe p ∧ r.priLe p ∧ l.isHeap ∧ r.isHeap

/-- All node versions in the tree are `≤ b`. -/
def allVerLe : VertreapTree It P → Nat → Prop
  | .nil, _ => True
  | .node v _ _ l r, b => v ≤ b ∧ l.allVerLe b ∧ r.allVerLe b

/-- The version-monotonicity invariant of the spec: each present child's
version is `≤` its parent's version. -/
def versionsOK : VertreapTree It P → Prop
  | .nil => True
  | .node v _ _ l r => l.ver ≤ v ∧ r.ver ≤ v ∧ l.versionsOK ∧ r.versionsOK

/-- The shape of a tree: node positions with versions, priorities and payloads
erased.  Used to express that an update leaves every node in place. -/
def shape : VertreapTree It P → VertreapTree Unit Unit
  | .nil => .nil
  | .node _ _ _ l r => .node 0 () () l.shape r.shape

/-- Observer: the priority stored at the (unique, in a BST) node whose item
has key `k`, read off the in-order payload list. -/
def prioAt [LinearOrder K] (key : It → K) (t : VertreapTree It P) (k : K) :
    Option P :=
  (t.inorderPI.find? (fun e => decide (key e.2 = k))).map (·.1)

end VertreapTree

/-- `u64::MAX + 1`: the wrap-around modulus of the lineage version counter. -/
def U64LIMIT : Nat := 2 ^ 64

/-- Models `Vertreap<Item, P>` (src/lib.rs:351-356).  The shared
`Rc<VertreapState>` cell is not stored in the handle here; its current value is
passed explicitly to `appendWithPriority`. -/
structure Vertreap (It P : Type) : Type where
  version : Nat
  count : Nat
  root : VertreapTree It P
  deriving DecidableEq

namespace Vertreap

variable {It P K : Type}

/-- Models `Vertreap::default` (src/lib.rs:358-367): version 0, count 0, empty
root, fresh counter cell holding 0. -/
def empty : Vertreap It P := ⟨0, 0, .nil⟩

/-- Models `Vertreap::len` (src/lib.rs:381-383). -/
def len (t : Vertreap It P) : Nat := t.count

/-- Models `Vertreap::find` (src/lib.rs:389-394). -/
def find [LinearOrder K] (key : It → K) (t : Vertreap It P) (k : K) :
    Option It :=
  t.root.find key k

/-- Models `Vertreap::append_with_priority` (src/lib.rs:401-422).  `c` is the
current value of the shared lineage counter cell; the result carries the new
handle and the new counter value.  `none` models a trap: either the `u64`
increment wrapped (`assert!(new_version != 0)`, src/lib.rs:404) or the
handle's own version was not below the fresh stamp
(`assert!(self.version < new_version)`, src/lib.rs:406). -/
def appendWithPriority [LinearOrder K] [LinearOrder P] (key : It → K)
    (t : Vertreap It P) (c : Nat) (q : P) (x : It) :
    Option (Vertreap It P × Nat) :=
  let newV := (c + 1) % U64LIMIT
  if newV = 0 then none
  else if t.version < newV then
    let res := t.root.append key newV q x
    some (⟨newV, t.count + res.2, res.1⟩, newV)
  else none

end Vertreap

/-- Models `VertreapIter<Item, P>` (src/lib.rs:294-298): `next` is the
`Option<Rc<VertreapNode>>` cursor (`nil` = `None`), `stack` the explicit
traversal stack (top first; its entries are always present nodes). -/
structure VertreapIter (It P : Type) : Type where
  done : Bool
  next : VertreapTree It P
  stack : List (VertreapTree It P)
  deriving DecidableEq

namespace VertreapIter

variable {It P : Type}

/-- Models `VertreapIter::new` (src/lib.rs:301-307). -/
def new (root : VertreapTree It P) : VertreapIter It P := ⟨false, root, []⟩

/-- The push phase of `VertreapIter::next`'s loop (src/lib.rs:320-325): walk
`next`'s left spine, pushing each visited node. -/
def pushLeftSpine : VertreapTree It P → List (VertreapTree It P) →
    List (VertreapTree It P)
  | .nil, st => st
  | .node v p i l r, st => pushLeftSpine l (.node v p i l r :: st)

/-- Models `VertreapIter::next` (src/lib.rs:313-344).  The loop pushes the left
spine of `next`, then pops once: a popped node is yielded and its right child
becomes the new cursor; an empty stack sets `done` and yields `None`. -/
def step (it : VertreapIter It P) : Option (VertreapTree It P) × VertreapIter It P :=
  if it.done then (none, it)
  else
    match pushLeftSpine it.next it.stack with
    | [] => (none, ⟨true, .nil, []⟩)
    | top :: rest => (some top, ⟨false, top.rightT, rest⟩)

/-- The iterator state after one call to `step`. -/
def stepState (it : VertreapIter It P) : VertreapIter It P := (it.step).2

/-- Pull at most `fuel` nodes from the iterator. -/
def drain : Nat → VertreapIter It P → List (VertreapTree It P)
  | 0, _ => []
  | fuel + 1, it =>
    match it.step with
    | (none, _) => []
    | (some nd, it2) => nd :: drain fuel it2

/-- The flattening of one stack entry followed by the rest: the entry itself,
then its right subtree in order, then the deeper entries. -/
def flattenStack : List (VertreapTree It P) → List (VertreapTree It P)
  | [] => []
  | t :: rest => (t :: t.rightT.inorderNodes) ++ flattenStack rest

/-- The sequence of nodes a live iterator state has yet to yield. -/
def remaining (it : VertreapIter It P) : List (VertreapTree It P) :=
  if it.done then [] else it.next.inorderNodes ++ flattenStack it.stack

/-- Stack entries are always present nodes. -/
def inv (it : VertreapIter It P) : Prop :=
  ∀ t ∈ it.stack, t ≠ VertreapTree.nil

end VertreapIter

/-- Project the items out of a list of present nodes (the façade iterators map
each yielded `Rc<VertreapNode>` to its `item`, src/lib.rs:106-108, 211-213). -/
def nodeItems {It P : Type} : List (VertreapTree It P) → List It
  | [] => []
  | .nil :: rest => nodeItems rest
  | .node _ _ i _ _ :: rest => i :: nodeItems rest

/-- The full finite item sequence produced by iterating a handle to
exhaustion: strictly more pulls are offered than the tree has nodes, so the
iterator runs dry and every yielded item is collected.  (The fuel only cuts
off `drain`'s recursion; the iterator itself stops at its own `done` flag.) -/
def Vertreap.iterItems {It P : Type} (t : Vertreap It P) : List It :=
  nodeItems (VertreapIter.drain (t.root.numNodes + 1) (VertreapIter.new t.root))

/-- All lineage states reachable from one empty collection through the public
append API: `Reach key c hs` holds when, after some sequence of appends (each
issued against any handle of the lineage, newest handle first in `hs`), the
shared counter cell holds `c` and the issued handles are exactly `hs`. -/
inductive Reach {It P K : Type} [LinearOrder K] [LinearOrder P] (key : It → K) :
    Nat → List (Vertreap It P) → Prop where
  | init : Reach key 0 [Vertreap.empty]
  | app {c : Nat} {hs : List (Vertreap It P)} {h : Vertreap It P} {q : P}
      {x : It} {h2 : Vertreap It P} {c2 : Nat} :
      Reach key c hs → h ∈ hs →
      Vertreap.appendWithPriority key h c q x = some (h2, c2) →
      Reach key c2 (h2 :: hs)

/-- The invariants of a reachable tree: BST order, max-heap order, per-edge
version monotonicity, and all versions bounded by the handle's stamp. -/
def GoodTree {It P K : Type} [LinearOrder K] [LinearOrder P] (key : It → K)
    (t : VertreapTree It P) (v : Nat) : Prop :=
  t.isBST key ∧ t.isHeap ∧ t.versionsOK ∧ t.allVerLe v

/-- The invariants of a reachable handle against counter value `c`. -/
def GoodHandle {It P K : Type} [LinearOrder K] [LinearOrder P] (key : It → K)
    (h : Vertreap It P) (c : Nat) : Prop :=
  GoodTree key h.root h.version ∧ h.version ≤ c ∧
  h.count = h.root.inorderPI.length

/-- One append step against the lineage state `(c, hs)`, the appending caller
picking the handle `hs[idx]`: the counter advances and the new handle is
published; every previously issued handle stays untouched. -/
def stepAppend {It P K : Type} [LinearOrder K] [LinearOrder P] (key : It → K)
    (c : Nat) (hs : List (Vertreap It P)) (idx : Nat) (q : P) (x : It) :
    Option (Nat × List (Vertreap It P)) :=
  match hs[idx]? with
  | none => none
  | some h => (h.appendWithPriority key c q x).map (fun r => (r.2, r.1 :: hs))

/-- One step of a linear run of appends: thread `(handle, counter)` through
`append_with_priority`, propagating a trap. -/
def runStep {It P K : Type} [LinearOrder K] [LinearOrder P] (key : It → K)
    (a : Option (Vertreap It P × Nat)) (op : P × It) :
    Option (Vertreap It P × Nat) :=
  match a with
  | none => none
  | some (t, c) => t.appendWithPriority key c op.1 op.2

/-- Run a sequence of `append_with_priority` calls, in order, from the empty
collection (counter cell at 0). -/
def runAppends {It P K : Type} [LinearOrder K] [LinearOrder P] (key : It → K)
    (ops : List (P × It)) : Option (Vertreap It P × Nat) :=
  ops.foldl (runStep key) (some (Vertreap.empty, 0))

/-- The last-write-wins model of `find`: the item of the most recent append
whose key is `k`. -/
def lookupLast {It P K : Type} [DecidableEq K] (key : It → K)
    (ops : List (P × It)) (k : K) : Option It :=
  ops.foldl (fun acc op => if key op.2 = k then some op.2 else acc) none

/-- The first-write-wins model of priorities: the priority supplied by the
first append whose key is `k`. -/
def firstPrio {It P K : Type} [DecidableEq K] (key : It → K)
    (ops : List (P × It)) (k : K) : Option P :=
  ops.foldl
    (fun acc op =>
      match acc with
      | some p => some p
      | none => if key op.2 = k then some op.1 else none)
    none

/-- The sorted-position insertion (or same-key payload replacement, keeping
the stored priority) that `_append` performs on the in-order payload list. -/
def listInsertPI {It P K : Type} [LinearOrder K] (key : It → K) (q : P)
    (x : It) : List (P × It) → List (P × It)
  | [] => [(q, x)]
  | (p1, y) :: ys =>
    match cmp3 (key x) (key y) with
    | .eq => (p1, x) :: ys
    | .lt => (q, x) :: (p1, y) :: ys
    | .gt => (p1, y) :: listInsertPI key q x ys

/-- Models `KV<K, V>` (src/lib.rs:13-16): a key-value pair ordered solely by
the key. -/
structure KV (K V : Type) : Type where
  k : K
  v : V
  deriving DecidableEq

/-- An explicit random source: an infinite stream of draws and a cursor.
Models both Rust's `ThreadRng` and a caller-supplied `Rng`, each treated (as
the spec directs) as an opaque capability producing uniformly drawn values. -/
structure ModelRng (P : Type) : Type where
  seq : Nat → P
  cursor : Nat

/-- Models `Rng::sample(&Standard)`: yield the draw at the cursor and advance
the cursor. -/
def ModelRng.sample {P : Type} (r : ModelRng P) : P × ModelRng P :=
  (r.seq r.cursor, ⟨r.seq, r.cursor + 1⟩)

/-- Models the `Rc<dyn KeyedGenerator<K, P>>` held by `VertreapMap`
(src/lib.rs:113), in its three concrete implementations (src/lib.rs:46-97):
the thread-local generator (draws from the ambient thread RNG), the
explicit-RNG generator (owns a `RefCell`ed RNG), and the randomly seeded keyed
hasher (a pure function of the key, the hidden seed being fixed at
construction). -/
inductive KeyedGen (K P : Type) : Type where
  | threadRng : KeyedGen K P
  | rngGen (r : ModelRng P) : KeyedGen K P
  | randomHasher (h : K → P) : KeyedGen K P

/-- Models `KeyedGenerator::make_priority` (src/lib.rs:42-44, 55-59, 73-77,
91-97).  The ambient thread RNG `tr` is threaded explicitly; the returned
`KeyedGen` is the generator's updated internal state (the `RefCell` write of
`RngGenerator`). -/
def KeyedGen.makePriority {K P : Type} :
    KeyedGen K P → K → ModelRng P → P × KeyedGen K P × ModelRng P
  | .threadRng, _, tr =>
    let s := tr.sample
    (s.1, .threadRng, s.2)
  | .rngGen r, _, tr =>
    let s := r.sample
    (s.1, .rngGen s.2, tr)
  | .randomHasher h, k, tr => (h k, .randomHasher h, tr)

/-- Models `VertreapMap<K, V, P>` (src/lib.rs:112-115): a configured priority
generator plus the backing treap over `KV` items. -/
structure VertreapMap (K V P : Type) : Type where
  state : KeyedGen K P
  vtreap : Vertreap (KV K V) P

namespace VertreapMap

variable {K V P : Type}

/-- Models `VertreapMap::new_with_thread_rng` (src/lib.rs:135-140). -/
def newWithThreadRng : VertreapMap K V P := ⟨.threadRng, Vertreap.empty⟩

/-- Models `VertreapMap::new_with_rng` (src/lib.rs:144-149). -/
def newWithRng (r : ModelRng P) : VertreapMap K V P := ⟨.rngGen r, Vertreap.empty⟩

/-- Models `VertreapMap::new_with_random_hasher` (src/lib.rs:155-160), the
randomly seeded keyed hash being abstracted as the function `h`. -/
def newWithRandomHasher (h : K → P) : VertreapMap K V P :=
  ⟨.randomHasher h, Vertreap.empty⟩

/-- Models `VertreapMap::len` (src/lib.rs:165-167). -/
def len (m : VertreapMap K V P) : Nat := m.vtreap.len

/-- Models `VertreapMap::find` (src/lib.rs:181-183). -/
def find [LinearOrder K] (m : VertreapMap K V P) (k : K) : Option (KV K V) :=
  m.vtreap.find KV.k k

/-- Models `VertreapMap::append_with_priority` (src/lib.rs:195-201); `c` is
the lineage counter value. -/
def appendWithPriority [LinearOrder K] [LinearOrder P] (m : VertreapMap K V P)
    (c : Nat) (q : P) (k : K) (v : V) : Option (VertreapMap K V P × Nat) :=
  (m.vtreap.appendWithPriority KV.k c q ⟨k, v⟩).map
    (fun r => (⟨m.state, r.1⟩, r.2))

/-- Models `VertreapMap::append` (src/lib.rs:190-193): ask the configured
generator for a priority, then `append_with_priority`.  Returns the new map,
the generator's updated shared state, the advanced ambient thread RNG, and the
new counter. -/
def append [LinearOrder K] [LinearOrder P] (m : VertreapMap K V P) (c : Nat)
    (k : K) (v : V) (tr : ModelRng P) :
    Option (VertreapMap K V P × KeyedGen K P × ModelRng P × Nat) :=
  let g := m.state.makePriority k tr
  (m.vtreap.appendWithPriority KV.k c g.1 ⟨k, v⟩).map
    (fun r => (⟨g.2.1, r.1⟩, g.2.1, g.2.2, r.2))

end VertreapMap

/-- Models `VertreapSet<K, P>` (src/lib.rs:217-219): just the backing treap
over bare keys — the Set façade stores no priority generator. -/
structure VertreapSet (K P : Type) : Type where
  vtreap : Vertreap K P

namespace VertreapSet

variable {K P : Type}

/-- Models `VertreapSet::new` / `default` (src/lib.rs:221-242). -/
def new : VertreapSet K P := ⟨Vertreap.empty⟩

/-- Models `VertreapSet::len` (src/lib.rs:246-248). -/
def len (s : VertreapSet K P) : Nat := s.vtreap.len

/-- Models `VertreapSet::contains` (src/lib.rs:262-264):
`find(key).is_some()`. -/
def contains [LinearOrder K] (s : VertreapSet K P) (k : K) : Bool :=
  (s.vtreap.find id k).isSome

/-- Models `VertreapSet::append_with_priority` (src/lib.rs:286-292). -/
def appendWithPriority [LinearOrder K] [LinearOrder P] (s : VertreapSet K P)
    (c : Nat) (q : P) (k : K) : Option (VertreapSet K P × Nat) :=
  (s.vtreap.appendWithPriority id c q k).map (fun r => (⟨r.1⟩, r.2))

/-- Models `VertreapSet::append_with_rng` (src/lib.rs:276-279): sample the
caller-supplied RNG for the priority, then `append_with_priority`. -/
def appendWithRng [LinearOrder K] [LinearOrder P] (s : VertreapSet K P)
    (c : Nat) (r : ModelRng P) (k : K) :
    Option (VertreapSet K P × ModelRng P × Nat) :=
  let d := r.sample
  (s.appendWithPriority c d.1 k).map (fun x => (x.1, d.2, x.2))

/-- Models `VertreapSet::append` (src/lib.rs:272-274): delegate to
`append_with_rng` on the ambient thread RNG `tr`. -/
def append [LinearOrder K] [LinearOrder P] (s : VertreapSet K P) (c : Nat)
    (tr : ModelRng P) (k : K) :
    Option (VertreapSet K P × ModelRng P × Nat) :=
  s.appendWithRng c tr k

end VertreapSet

/-- Modelled from the spec: the spec claims the keyed-hash-backed generator
constructor is available at construction time on the Set façade, and that
`append` then obtains each newly inserted key's priority from that configured
generator ("Generator constructors: thread-local-random, explicit-RNG-backed,
keyed-hash-backed", available "on both façades"; "`append(handle, key[, value])
→ new handle` — uses the configured PriorityGenerator"; such a constructor does
not exist in src/lib.rs).  Concretely, at `K = P = Nat`: some constructor takes
the keyed hash, yields an empty set, and a successful `append` of a key to that
fresh set stores `hash key` as the key's priority. -/
def SetKeyedHashAvailable : Prop :=
  ∃ mk : (Nat → Nat) → VertreapSet Nat Nat,
    (∀ h, (mk h).vtreap = Vertreap.empty) ∧
    ∀ h k (tr : ModelRng Nat) s2 tr2 c2,
      (mk h).append 0 tr k = some (s2, tr2, c2) →
      s2.vtreap.root.prioAt id k = some (h k)

/-! ### Basic lemmas about `cmp3` -/

theorem cmp3_eq_iff {α : Type} [LinearOrder α] {a b : α} :
    cmp3 a b = Ordering.eq ↔ a = b := by
  rcases lt_trichotomy a b with h | h | h
  · simp [cmp3, h, h.ne]
  · simp [cmp3, h, lt_irrefl]
  · simp [cmp3, h.not_lt, h.ne']

theorem cmp3_lt_iff {α : Type} [LinearOrder α] {a b : α} :
    cmp3 a b = Ordering.lt ↔ a < b := by
  rcases lt_trichotomy a b with h | h | h
  · simp [cmp3, h]
  · simp [cmp3, h, lt_irrefl]
  · simp [cmp3, h.not_lt, h.ne']

theorem cmp3_gt_iff {α : Type} [LinearOrder α] {a b : α} :
    cmp3 a b = Ordering.gt ↔ b < a := by
  rcases lt_trichotomy a b with h | h | h
  · simp [cmp3, h, h.not_lt]
  · simp [cmp3, h, lt_irrefl]
  · simp [cmp3, h.not_lt, h.ne', h]

/-! ### Lemmas about `listInsertPI` -/

section ListInsertLemmas

variable {It P K : Type} [LinearOrder K] {key : It → K}

theorem mem_listInsertPI {q : P} {x : It} {xs : List (P × It)} {e : P × It}
    (h : e ∈ listInsertPI key q x xs) : key e.2 = key x ∨ e ∈ xs := by
  induction xs with
  | nil =>
    simp [listInsertPI] at h
    subst h
    exact Or.inl rfl
  | cons y ys ih =>
    obtain ⟨p1, y⟩ := y
    cases hc : cmp3 (key x) (key y) with
    | eq =>
      simp only [listInsertPI, hc, List.mem_cons] at h
      rcases h with h | h
      · subst h
        exact Or.inl rfl
      · exact Or.inr (List.mem_cons_of_mem _ h)
    | lt =>
      simp only [listInsertPI, hc, List.mem_cons] at h
      rcases h with h | h | h
      · subst h
        exact Or.inl rfl
      · subst h
        exact Or.inr (List.mem_cons_self _ _)
      · exact Or.inr (List.mem_cons_of_mem _ h)
    | gt =>
      simp only [listInsertPI, hc, List.mem_cons] at h
      rcases h with h | h
      · subst h
        exact Or.inr (List.mem_cons_self _ _)
      · rcases ih h with h2 | h2
        · exact Or.inl h2
        · exact Or.inr (List.mem_cons_of_mem _ h2)

theorem sorted_listInsertPI {q : P} {x : It} {xs : List (P × It)}
    (h : xs.Pairwise (fun a b => key a.2 < key b.2)) :
    (listInsertPI key q x xs).Pairwise (fun a b => key a.2 < key b.2) := by
  induction xs with
  | nil => simp [listInsertPI]
  | cons y ys ih =>
    obtain ⟨p1, y⟩ := y
    obtain ⟨hy, hys⟩ := List.pairwise_cons.mp h
    cases hc : cmp3 (key x) (key y) with
    | eq =>
      have hxy : key x = key y := cmp3_eq_iff.mp hc
      simp only [listInsertPI, hc]
      exact List.pairwise_cons.mpr ⟨fun e he => hxy ▸ hy e he, hys⟩
    | lt =>
      have hxy : key x < key y := cmp3_lt_iff.mp hc
      simp only [listInsertPI, hc]
      refine List.pairwise_cons.mpr ⟨?_, h⟩
      intro e he
      rcases List.mem_cons.mp he with he | he
      · subst he
        exact hxy
      · exact hxy.trans (hy e he)
    | gt =>
      have hyx : key y < key x := cmp3_gt_iff.mp hc
      simp only [listInsertPI, hc]
      refine List.pairwise_cons.mpr ⟨?_, ih hys⟩
      intro e he
      rcases mem_listInsertPI he with hk | hm
      · rw [hk]
        exact hyx
      · exact hy e hm

theorem length_listInsertPI {q : P} {x : It} {xs : List (P × It)}
    (h : xs.Pairwise (fun a b => key a.2 < key b.2)) :
    (listInsertPI key q x xs).length =
      if (xs.find? (fun e => decide (key e.2 = key x))).isSome then xs.length
      else xs.length + 1 := by
  induction xs with
  | nil => simp [listInsertPI]
  | cons y ys ih =>
    obtain ⟨p1, y⟩ := y
    obtain ⟨hy, hys⟩ := List.pairwise_cons.mp h
    cases hc : cmp3 (key x) (key y) with
    | eq =>
      have hxy : key x = key y := cmp3_eq_iff.mp hc
      simp only [listInsertPI, hc]
      rw [List.find?_cons_of_pos _ (by simp [hxy])]
      simp
    | lt =>
      have hxy : key x < key y := cmp3_lt_iff.mp hc
      have habs : ys.find? (fun e => decide (key e.2 = key x)) = none := by
        rw [List.find?_eq_none]
        intro e he
        simp only [decide_eq_true_eq]
        exact fun hk => absurd (hk ▸ hy e he) (not_lt_of_gt hxy)
      simp only [listInsertPI, hc]
      rw [List.find?_cons_of_neg _ (by simp [hxy.ne']), habs]
      simp
    | gt =>
      have hyx : key y < key x := cmp3_gt_iff.mp hc
      simp only [listInsertPI, hc]
      rw [List.find?_cons_of_neg _ (by simp [hyx.ne])]
      simp only [List.length_cons, ih hys]
      split <;> simp

theorem find?_listInsertPI_ne {q : P} {x : It} {xs : List (P × It)} {k : K}
    (hk : k ≠ key x) :
    (listInsertPI key q x xs).find? (fun e => decide (key e.2 = k)) =
      xs.find? (fun e => decide (key e.2 = k)) := by
  induction xs with
  | nil => simp [listInsertPI, hk.symm]
  | cons y ys ih =>
    obtain ⟨p1, y⟩ := y
    cases hc : cmp3 (key x) (key y) with
    | eq =>
      have hxy : key x = key y := cmp3_eq_iff.mp hc
      simp only [listInsertPI, hc]
      rw [List.find?_cons_of_neg _ (by simp [hk.symm]),
        List.find?_cons_of_neg _ (by simp [hxy ▸ hk.symm])]
    | lt =>
      simp only [listInsertPI, hc]
      rw [List.find?_cons_of_neg _ (by simp [hk.symm])]
    | gt =>
      simp only [listInsertPI, hc]
      by_cases hp : key y = k
      · rw [List.find?_cons_of_pos _ (by simp [hp]),
          List.find?_cons_of_pos _ (by simp [hp])]
      · rw [List.find?_cons_of_neg _ (by simp [hp]),
          List.find?_cons_of_neg _ (by simp [hp]), ih]

theorem find?_listInsertPI_absent {q : P} {x : It} {xs : List (P × It)}
    (habs : xs.find? (fun e => decide (key e.2 = key x)) = none) :
    (listInsertPI key q x xs).find? (fun e => decide (key e.2 = key x)) =
      some (q, x) := by
  induction xs with
  | nil => simp [listInsertPI]
  | cons y ys ih =>
    obtain ⟨p1, y⟩ := y
    rw [List.find?_eq_none] at habs
    have hyk : ¬ key y = key x := by
      have := habs (p1, y) (List.mem_cons_self _ _)
      simpa using this
    cases hc : cmp3 (key x) (key y) with
    | eq => exact absurd (cmp3_eq_iff.mp hc).symm hyk
    | lt =>
      simp only [listInsertPI, hc]
      rw [List.find?_cons_of_pos _ (by simp)]
    | gt =>
      simp only [listInsertPI, hc]
      rw [List.find?_cons_of_neg _ (by simp [hyk])]
      exact ih (List.find?_eq_none.mpr fun e he => habs e (List.mem_cons_of_mem _ he))

theorem find?_listInsertPI_present {q : P} {x : It} {xs : List (P × It)}
    {e : P × It} (h : xs.Pairwise (fun a b => key a.2 < key b.2))
    (hfind : xs.find? (fun e => decide (key e.2 = key x)) = some e) :
    (listInsertPI key q x xs).find? (fun e2 => decide (key e2.2 = key x)) =
      some (e.1, x) := by
  induction xs with
  | nil => simp at hfind
  | cons y ys ih =>
    obtain ⟨p1, y⟩ := y
    obtain ⟨hy, hys⟩ := List.pairwise_cons.mp h
    by_cases hp : key y = key x
    · rw [List.find?_cons_of_pos _ (by simp [hp])] at hfind
      obtain rfl : (p1, y) = e := by simpa using hfind
      have hc : cmp3 (key x) (key y) = Ordering.eq := cmp3_eq_iff.mpr hp.symm
      simp only [listInsertPI, hc]
      rw [List.find?_cons_of_pos _ (by simp)]
    · rw [List.find?_cons_of_neg _ (by simp [hp])] at hfind
      cases hc : cmp3 (key x) (key y) with
      | eq => exact absurd (cmp3_eq_iff.mp hc).symm hp
      | lt =>
        have hxy : key x < key y := cmp3_lt_iff.mp hc
        have : ys.find? (fun e => decide (key e.2 = key x)) = none := by
          rw [List.find?_eq_none]
          intro e2 he2
          simp only [decide_eq_true_eq]
          exact fun hk => absurd (hk ▸ hy e2 he2) (not_lt_of_gt hxy)
        rw [this] at hfind
        exact absurd hfind (by simp)
      | gt =>
        simp only [listInsertPI, hc]
        rw [List.find?_cons_of_neg _ (by simp [hp])]
        exact ih hys hfind

end ListInsertLemmas

/-! ### Structural lemmas about trees and `append` -/

section TreeLemmas

variable {It P K : Type} [LinearOrder K] [LinearOrder P] {key : It → K}

theorem rootPrioLe_iff {t : VertreapTree It P} {b : P} :
    t.rootPrioLe b = true ↔ t.priLe b := by
  cases t <;> simp [VertreapTree.rootPrioLe, VertreapTree.priLe]

theorem priLe_mono {t : VertreapTree It P} {a b : P} (h : t.priLe a)
    (hab : a ≤ b) : t.priLe b := by
  cases t with
  | nil => trivial
  | node v p i l r => exact le_trans h hab

theorem listInsertPI_append_right {q : P} {x : It} {xs rest : List (P × It)}
    (hxs : ∀ e ∈ xs, key e.2 < key x) :
    listInsertPI key q x (xs ++ rest) = xs ++ listInsertPI key q x rest := by
  induction xs with
  | nil => simp
  | cons y ys ih =>
    obtain ⟨p1, y⟩ := y
    have hy : key y < key x := hxs (p1, y) (List.mem_cons_self _ _)
    have hc : cmp3 (key x) (key y) = Ordering.gt := cmp3_gt_iff.mpr hy
    simp only [List.cons_append, listInsertPI, hc]
    exact congrArg (List.cons (p1, y))
      (ih (fun e he => hxs e (List.mem_cons_of_mem _ he)))

theorem listInsertPI_append_left {q : P} {x : It} {xs ys : List (P × It)}
    {j : P × It} (hj : key x < key j.2) :
    listInsertPI key q x (xs ++ j :: ys) = listInsertPI key q x xs ++ j :: ys := by
  induction xs with
  | nil =>
    obtain ⟨pj, j⟩ := j
    have hc : cmp3 (key x) (key j) = Ordering.lt := cmp3_lt_iff.mpr hj
    simp [listInsertPI, hc]
  | cons y ys2 ih =>
    obtain ⟨p1, y⟩ := y
    cases hc : cmp3 (key x) (key y) with
    | eq => simp [listInsertPI, hc]
    | lt => simp [listInsertPI, hc]
    | gt => simp [listInsertPI, hc, ih]

theorem isBST_iff_sortedPI {t : VertreapTree It P} :
    t.isBST key ↔ t.inorderPI.Pairwise (fun a b => key a.2 < key b.2) := by
  induction t with
  | nil => simp [VertreapTree.isBST, VertreapTree.inorderPI]
  | node v p i l r ihl ihr =>
    simp only [VertreapTree.isBST, VertreapTree.inorderPI,
      VertreapTree.inorderItems]
    rw [List.pairwise_append, List.pairwise_cons]
    constructor
    · rintro ⟨hl, hr, bl, br⟩
      refine ⟨ihl.mp bl, ⟨fun b hb => hr b.2 (List.mem_map_of_mem _ hb),
        ihr.mp br⟩, ?_⟩
      intro a ha b hb
      rcases List.mem_cons.mp hb with rfl | hb
      · exact hl a.2 (List.mem_map_of_mem _ ha)
      · exact (hl a.2 (List.mem_map_of_mem _ ha)).trans
          (hr b.2 (List.mem_map_of_mem _ hb))
    · rintro ⟨pl, ⟨hmid, pr⟩, hcross⟩
      refine ⟨?_, ?_, ihl.mpr pl, ihr.mpr pr⟩
      · intro y hy
        obtain ⟨e, he, rfl⟩ := List.mem_map.mp hy
        exact hcross e he (p, i) (List.mem_cons_self _ _)
      · intro y hy
        obtain ⟨e, he, rfl⟩ := List.mem_map.mp hy
        exact hmid e he

theorem append_ne_nil (newV : Nat) (q : P) (x : It) (t : VertreapTree It P) :
    (t.append key newV q x).1 ≠ VertreapTree.nil := by
  cases t with
  | nil => simp [VertreapTree.append]
  | node v p i l r =>
    simp only [VertreapTree.append]
    cases hc : cmp3 (key x) (key i) with
    | eq => simp
    | lt =>
      simp only []
      split
      · simp
      · cases hres : (VertreapTree.append key newV q x l).1 with
        | nil => simp [VertreapTree.rotateRight]
        | node a b c d e => simp [VertreapTree.rotateRight]
    | gt =>
      simp only []
      split
      · simp
      · cases hres : (VertreapTree.append key newV q x r).1 with
        | nil => simp [VertreapTree.rotateLeft]
        | node a b c d e => simp [VertreapTree.rotateLeft]

theorem append_inorderPI {newV : Nat} {q : P} {x : It} {t : VertreapTree It P}
    (hbst : t.isBST key) :
    ((t.append key newV q x).1).inorderPI = listInsertPI key q x t.inorderPI := by
  induction t with
  | nil => simp [VertreapTree.append, VertreapTree.inorderPI, listInsertPI]
  | node v p i l r ihl ihr =>
    obtain ⟨hl, hr, bl, br⟩ := hbst
    cases hc : cmp3 (key x) (key i) with
    | eq =>
      have hxy : key x = key i := cmp3_eq_iff.mp hc
      have hskip : ∀ e ∈ l.inorderPI, key e.2 < key x := fun e he =>
        hxy ▸ hl e.2 (List.mem_map_of_mem _ he)
      simp only [VertreapTree.append, hc, VertreapTree.inorderPI]
      rw [listInsertPI_append_right hskip]
      have hc2 : cmp3 (key x) (key i) = Ordering.eq := hc
      simp [listInsertPI, hc2]
    | lt =>
      have hxy : key x < key i := cmp3_lt_iff.mp hc
      have hins : listInsertPI key q x (l.inorderPI ++ (p, i) :: r.inorderPI) =
          listInsertPI key q x l.inorderPI ++ (p, i) :: r.inorderPI :=
        listInsertPI_append_left hxy
      simp only [VertreapTree.append, VertreapTree.inorderPI, hc]
      rw [hins, ← ihl bl]
      split
      · simp [VertreapTree.inorderPI]
      · cases hres : (VertreapTree.append key newV q x l).1 with
        | nil => exact absurd hres (append_ne_nil newV q x l)
        | node a b c d e =>
          simp [VertreapTree.rotateRight, VertreapTree.inorderPI, hres]
    | gt =>
      have hxy : key i < key x := cmp3_gt_iff.mp hc
      have hskip : ∀ e ∈ l.inorderPI, key e.2 < key x := fun e he =>
        (hl e.2 (List.mem_map_of_mem _ he)).trans hxy
      simp only [VertreapTree.append, VertreapTree.inorderPI, hc]
      rw [listInsertPI_append_right hskip]
      have hc2 : cmp3 (key x) (key i) = Ordering.gt := hc
      simp only [listInsertPI, hc2]
      rw [← ihr br]
      split
      · simp [VertreapTree.inorderPI]
      · cases hres : (VertreapTree.append key newV q x r).1 with
        | nil => exact absurd hres (append_ne_nil newV q x r)
        | node a b c d e =>
          simp [VertreapTree.rotateLeft, VertreapTree.inorderPI, hres]

theorem find_eq_find?PI {t : VertreapTree It P} (hbst : t.isBST key) (k : K) :
    t.find key k =
      (t.inorderPI.find? (fun e => decide (key e.2 = k))).map (·.2) := by
  induction t with
  | nil => simp [VertreapTree.find, VertreapTree.inorderPI]
  | node v p i l r ihl ihr =>
    obtain ⟨hl, hr, bl, br⟩ := hbst
    simp only [VertreapTree.find, VertreapTree.inorderPI, List.find?_append]
    cases hc : cmp3 (key i) k with
    | eq =>
      have hik : key i = k := cmp3_eq_iff.mp hc
      have hnl : l.inorderPI.find? (fun e => decide (key e.2 = k)) = none := by
        rw [List.find?_eq_none]
        intro e he
        simp only [decide_eq_true_eq]
        intro h2
        have h3 := hl e.2 (List.mem_map_of_mem _ he)
        rw [h2, hik] at h3
        exact lt_irrefl k h3
      rw [hnl, List.find?_cons_of_pos _ (by simp [hik])]
      simp
    | gt =>
      have hki : k < key i := cmp3_gt_iff.mp hc
      have hnr : ((p, i) :: r.inorderPI).find?
          (fun e => decide (key e.2 = k)) = none := by
        rw [List.find?_eq_none]
        intro e he
        simp only [decide_eq_true_eq]
        rcases List.mem_cons.mp he with rfl | he
        · intro h2
          rw [h2] at hki
          exact lt_irrefl k hki
        · intro h2
          have h3 := hr e.2 (List.mem_map_of_mem _ he)
          rw [h2] at h3
          exact lt_irrefl k (hki.trans h3)
      rw [hnr, ihl bl]
      cases l.inorderPI.find? (fun e => decide (key e.2 = k)) <;> rfl
    | lt =>
      have hik : key i < k := cmp3_lt_iff.mp hc
      have hnl : l.inorderPI.find? (fun e => decide (key e.2 = k)) = none := by
        rw [List.find?_eq_none]
        intro e he
        simp only [decide_eq_true_eq]
        intro h2
        have h3 := hl e.2 (List.mem_map_of_mem _ he)
        rw [h2] at h3
        exact lt_irrefl k (h3.trans hik)
      rw [hnl, List.find?_cons_of_neg _ (by simp [hik.ne])]
      exact ihr br

theorem append_count (newV : Nat) (q : P) (x : It) (t : VertreapTree It P) :
    (t.append key newV q x).2 =
      if (t.find key (key x)).isSome then 0 else 1 := by
  induction t with
  | nil => simp [VertreapTree.append, VertreapTree.find]
  | node v p i l r ihl ihr =>
    cases hc : cmp3 (key x) (key i) with
    | eq =>
      have hflip : cmp3 (key i) (key x) = Ordering.eq :=
        cmp3_eq_iff.mpr (cmp3_eq_iff.mp hc).symm
      simp [VertreapTree.append, VertreapTree.find, hc, hflip]
    | lt =>
      have hflip : cmp3 (key i) (key x) = Ordering.gt :=
        cmp3_gt_iff.mpr (cmp3_lt_iff.mp hc)
      simp only [VertreapTree.append, VertreapTree.find, hc, hflip]
      split <;> exact ihl
    | gt =>
      have hflip : cmp3 (key i) (key x) = Ordering.lt :=
        cmp3_lt_iff.mpr (cmp3_gt_iff.mp hc)
      simp only [VertreapTree.append, VertreapTree.find, hc, hflip]
      split <;> exact ihr

theorem append_heap (key : It → K) (newV : Nat) (q : P) (x : It)
    (t : VertreapTree It P) (hheap : t.isHeap) :
    (t.append key newV q x).1.isHeap ∧
    (∀ w, t.priLe w → q ≤ w → (t.append key newV q x).1.priLe w) ∧
    (∀ w, t.priLe w →
      (t.append key newV q x).1.priLe w ∨
      ((t.append key newV q x).1.leftT.priLe w ∧
       (t.append key newV q x).1.rightT.priLe w)) := by
  induction t with
  | nil =>
    refine ⟨⟨trivial, trivial, trivial, trivial⟩, ?_, ?_⟩
    · intro w _ hq
      exact hq
    · intro w _
      exact Or.inr ⟨trivial, trivial⟩
  | node v p i l r ihl ihr =>
    obtain ⟨hlp, hrp, hl, hr⟩ := hheap
    cases hc : cmp3 (key x) (key i) with
    | eq =>
      simp only [VertreapTree.append, hc]
      exact ⟨⟨hlp, hrp, hl, hr⟩, fun w hw _ => hw, fun w hw => Or.inl hw⟩
    | lt =>
      obtain ⟨ihHeap, ihP2, ihP3⟩ := ihl hl
      simp only [VertreapTree.append, hc]
      split
      · rename_i hord
        have hA : (VertreapTree.append key newV q x l).1.priLe p :=
          rootPrioLe_iff.mp hord
        exact ⟨⟨hA, hrp, ihHeap, hr⟩, fun w hw _ => hw, fun w hw => Or.inl hw⟩
      · rename_i hord
        cases hres : (VertreapTree.append key newV q x l).1 with
        | nil =>
          rw [hres] at hord
          simp [VertreapTree.rootPrioLe] at hord
        | node av ap ai al ar =>
          rw [hres] at ihHeap ihP2 ihP3 hord
          simp only [VertreapTree.rootPrioLe, decide_eq_true_eq] at hord
          obtain ⟨hal, har, hhal, hhar⟩ := ihHeap
          rcases ihP3 p hlp with hfalse | ⟨halp, harp⟩
          · exact absurd hfalse hord
          · have hpap : p ≤ ap := le_of_lt (not_le.mp hord)
            simp only [VertreapTree.rotateRight]
            refine ⟨⟨hal, hpap, hhal, harp, hrp, hhar, hr⟩, ?_, ?_⟩
            · intro w hw hqw
              exact ihP2 w (priLe_mono hlp hw) hqw
            · intro w hw
              exact Or.inr ⟨priLe_mono halp hw, hw⟩
    | gt =>
      obtain ⟨ihHeap, ihP2, ihP3⟩ := ihr hr
      simp only [VertreapTree.append, hc]
      split
      · rename_i hord
        have hA : (VertreapTree.append key newV q x r).1.priLe p :=
          rootPrioLe_iff.mp hord
        exact ⟨⟨hlp, hA, hl, ihHeap⟩, fun w hw _ => hw, fun w hw => Or.inl hw⟩
      · rename_i hord
        cases hres : (VertreapTree.append key newV q x r).1 with
        | nil =>
          rw [hres] at hord
          simp [VertreapTree.rootPrioLe] at hord
        | node av ap ai al ar =>
          rw [hres] at ihHeap ihP2 ihP3 hord
          simp only [VertreapTree.rootPrioLe, decide_eq_true_eq] at hord
          obtain ⟨hal, har, hhal, hhar⟩ := ihHeap
          rcases ihP3 p hrp with hfalse | ⟨halp, harp⟩
          · exact absurd hfalse hord
          · have hpap : p ≤ ap := le_of_lt (not_le.mp hord)
            simp only [VertreapTree.rotateLeft]
            refine ⟨⟨hpap, har, ⟨hlp, halp, hl, hhal⟩, hhar⟩, ?_, ?_⟩
            · intro w hw hqw
              exact ihP2 w (priLe_mono hrp hw) hqw
            · intro w hw
              exact Or.inr ⟨hw, priLe_mono harp hw⟩

theorem ver_le_of_allVerLe {t : VertreapTree It P} {b : Nat}
    (h : t.allVerLe b) : t.ver ≤ b := by
  cases t with
  | nil => exact Nat.zero_le b
  | node v p i l r => exact h.1

theorem allVerLe_mono {t : VertreapTree It P} {a b : Nat} (h : t.allVerLe a)
    (hab : a ≤ b) : t.allVerLe b := by
  induction t with
  | nil => trivial
  | node v p i l r ihl ihr =>
    exact ⟨le_trans h.1 hab, ihl h.2.1, ihr h.2.2⟩

theorem append_versions (key : It → K) (newV : Nat) (q : P) (x : It)
    (t : VertreapTree It P) (hok : t.versionsOK) {b : Nat} (hall : t.allVerLe b)
    (hlt : b < newV) :
    (t.append key newV q x).1.versionsOK ∧
    (t.append key newV q x).1.allVerLe newV := by
  induction t with
  | nil =>
    exact ⟨⟨Nat.zero_le _, Nat.zero_le _, trivial, trivial⟩,
      le_refl newV, trivial, trivial⟩
  | node v p i l r ihl ihr =>
    obtain ⟨hvl, hvr, okl, okr⟩ := hok
    obtain ⟨hvb, hallL, hallR⟩ := hall
    have hbn : b ≤ newV := le_of_lt hlt
    have hlN : l.allVerLe newV := allVerLe_mono hallL hbn
    have hrN : r.allVerLe newV := allVerLe_mono hallR hbn
    cases hc : cmp3 (key x) (key i) with
    | eq =>
      simp only [VertreapTree.append, hc]
      exact ⟨⟨ver_le_of_allVerLe hlN, ver_le_of_allVerLe hrN, okl, okr⟩,
        le_refl newV, hlN, hrN⟩
    | lt =>
      obtain ⟨ihOK, ihAll⟩ := ihl okl hallL
      simp only [VertreapTree.append, hc]
      split
      · exact ⟨⟨ver_le_of_allVerLe ihAll, ver_le_of_allVerLe hrN, ihOK, okr⟩,
          le_refl newV, ihAll, hrN⟩
      · cases hres : (VertreapTree.append key newV q x l).1 with
        | nil => exact absurd hres (append_ne_nil newV q x l)
        | node av ap ai al ar =>
          rw [hres] at ihOK ihAll
          obtain ⟨hv1, hv2, ok1, ok2⟩ := ihOK
          obtain ⟨hva, hala, hara⟩ := ihAll
          simp only [VertreapTree.rotateRight]
          exact ⟨⟨ver_le_of_allVerLe hala, le_refl newV, ok1,
              ver_le_of_allVerLe hara, ver_le_of_allVerLe hrN, ok2, okr⟩,
            le_refl newV, hala, le_refl newV, hara, hrN⟩
    | gt =>
      obtain ⟨ihOK, ihAll⟩ := ihr okr hallR
      simp only [VertreapTree.append, hc]
      split
      · exact ⟨⟨ver_le_of_allVerLe hlN, ver_le_of_allVerLe ihAll, okl, ihOK⟩,
          le_refl newV, hlN, ihAll⟩
      · cases hres : (VertreapTree.append key newV q x r).1 with
        | nil => exact absurd hres (append_ne_nil newV q x r)
        | node av ap ai al ar =>
          rw [hres] at ihOK ihAll
          obtain ⟨hv1, hv2, ok1, ok2⟩ := ihOK
          obtain ⟨hva, hala, hara⟩ := ihAll
          simp only [VertreapTree.rotateLeft]
          exact ⟨⟨le_refl newV, ver_le_of_allVerLe hara,
              ⟨ver_le_of_allVerLe hlN, ver_le_of_allVerLe hala, okl, ok1⟩, ok2⟩,
            le_refl newV, ⟨le_refl newV, hlN, hala⟩, hara⟩

theorem rootPrioLe_congr {t1 t2 : VertreapTree It P} {w : P}
    (h : t1.rootPrioOpt = t2.rootPrioOpt) :
    t1.rootPrioLe w = t2.rootPrioLe w := by
  cases t1 <;> cases t2 <;>
    simp_all [VertreapTree.rootPrioOpt, VertreapTree.rootPrioLe]

theorem append_update (newV : Nat) (q : P) (x : It) (t : VertreapTree It P)
    (hbst : t.isBST key) (hheap : t.isHeap)
    (hpres : t.find key (key x) ≠ none) :
    (t.append key newV q x).1.shape = t.shape ∧
    (t.append key newV q x).1.rootPrioOpt = t.rootPrioOpt := by
  induction t with
  | nil => exact absurd rfl hpres
  | node v p i l r ihl ihr =>
    obtain ⟨hbl, hbr, bl, br⟩ := hbst
    obtain ⟨hlp, hrp, hl, hr⟩ := hheap
    cases hc : cmp3 (key x) (key i) with
    | eq =>
      simp only [VertreapTree.append, hc]
      exact ⟨rfl, rfl⟩
    | lt =>
      have hflip : cmp3 (key i) (key x) = Ordering.gt :=
        cmp3_gt_iff.mpr (cmp3_lt_iff.mp hc)
      rw [VertreapTree.find, hflip] at hpres
      obtain ⟨ihShape, ihPrio⟩ := ihl bl hl hpres
      have hord : (VertreapTree.append key newV q x l).1.rootPrioLe p = true := by
        rw [rootPrioLe_congr ihPrio]
        exact rootPrioLe_iff.mpr hlp
      simp only [VertreapTree.append, hc, hord, if_true]
      exact ⟨by simp [VertreapTree.shape, ihShape], rfl⟩
    | gt =>
      have hflip : cmp3 (key i) (key x) = Ordering.lt :=
        cmp3_lt_iff.mpr (cmp3_gt_iff.mp hc)
      rw [VertreapTree.find, hflip] at hpres
      obtain ⟨ihShape, ihPrio⟩ := ihr br hr hpres
      have hord : (VertreapTree.append key newV q x r).1.rootPrioLe p = true := by
        rw [rootPrioLe_congr ihPrio]
        exact rootPrioLe_iff.mpr hrp
      simp only [VertreapTree.append, hc, hord, if_true]
      exact ⟨by simp [VertreapTree.shape, ihShape], rfl⟩

end TreeLemmas

/-! ### Handle-level lemmas: `appendWithPriority`, invariants, reachability -/

section HandleLemmas

variable {It P K : Type} [LinearOrder K] [LinearOrder P] {key : It → K}

theorem appendWithPriority_some_inv {h : Vertreap It P} {c : Nat} {q : P}
    {x : It} {h2 : Vertreap It P} {c2 : Nat}
    (hap : Vertreap.appendWithPriority key h c q x = some (h2, c2)) :
    c2 = (c + 1) % U64LIMIT ∧ c2 ≠ 0 ∧ h.version < c2 ∧
    h2 = ⟨c2, h.count + (h.root.append key c2 q x).2,
      (h.root.append key c2 q x).1⟩ := by
  simp only [Vertreap.appendWithPriority] at hap
  split at hap
  · simp at hap
  · split at hap
    · rename_i hnz hlt
      rw [Option.some_inj] at hap
      obtain ⟨rfl, rfl⟩ := Prod.mk.injEq _ _ _ _ ▸ hap
      exact ⟨rfl, hnz, hlt, rfl⟩
    · simp at hap

theorem appendWithPriority_none_ge {h : Vertreap It P} {c : Nat} {q : P}
    {x : It} (hnz : (c + 1) % U64LIMIT ≠ 0)
    (hver : h.version < (c + 1) % U64LIMIT) :
    ∃ r, Vertreap.appendWithPriority key h c q x = some r := by
  simp only [Vertreap.appendWithPriority]
  rw [if_neg hnz, if_pos hver]
  exact ⟨_, rfl⟩

theorem goodHandle_mono {h : Vertreap It P} {c c' : Nat}
    (hg : GoodHandle key h c) (hcc : c ≤ c') : GoodHandle key h c' :=
  ⟨hg.1, le_trans hg.2.1 hcc, hg.2.2⟩

theorem appendWithPriority_good {h : Vertreap It P} {c : Nat} {q : P} {x : It}
    {h2 : Vertreap It P} {c2 : Nat} (hg : GoodHandle key h c)
    (hcL : c < U64LIMIT)
    (hap : Vertreap.appendWithPriority key h c q x = some (h2, c2)) :
    c2 = c + 1 ∧ c2 < U64LIMIT ∧ GoodHandle key h2 c2 ∧ h2.version = c2 ∧
    h2.root.inorderPI = listInsertPI key q x h.root.inorderPI ∧
    h2.count =
      (if (Vertreap.find key h (key x)).isSome then h.count else h.count + 1) := by
  obtain ⟨⟨hbst, hheap, hok, hall⟩, hvc, hcnt⟩ := hg
  obtain ⟨hc2, hnz, hvlt, hh2⟩ := appendWithPriority_some_inv hap
  have hc1 : c + 1 ≤ U64LIMIT := hcL
  have hceq : c2 = c + 1 := by
    rcases lt_or_eq_of_le hc1 with hlt | heq
    · rw [hc2, Nat.mod_eq_of_lt hlt]
    · exfalso
      apply hnz
      rw [hc2, heq, Nat.mod_self]
  have hc2L : c2 < U64LIMIT := by
    rcases lt_or_eq_of_le hc1 with hlt | heq
    · rw [hceq]
      exact hlt
    · exfalso
      apply hnz
      rw [hc2, heq, Nat.mod_self]
  subst hh2
  have hsorted := isBST_iff_sortedPI.mp hbst
  have hpi : (h.root.append key c2 q x).1.inorderPI =
      listInsertPI key q x h.root.inorderPI := append_inorderPI hbst
  have hbst2 : (h.root.append key c2 q x).1.isBST key := by
    rw [isBST_iff_sortedPI, hpi]
    exact sorted_listInsertPI hsorted
  have hheap2 := (append_heap key c2 q x h.root hheap).1
  have hvers := append_versions key c2 q x h.root hok hall hvlt
  have hfind : (VertreapTree.find key h.root (key x)).isSome =
      (h.root.inorderPI.find? (fun e => decide (key e.2 = key x))).isSome := by
    rw [find_eq_find?PI hbst]
    cases h.root.inorderPI.find? (fun e => decide (key e.2 = key x)) <;> rfl
  refine ⟨hceq, hc2L, ⟨⟨hbst2, hheap2, hvers.1, hvers.2⟩, le_refl c2, ?_⟩,
    rfl, hpi, ?_⟩
  · show h.count + (VertreapTree.append key c2 q x h.root).2 =
      (VertreapTree.append key c2 q x h.root).1.inorderPI.length
    rw [hcnt, hpi, length_listInsertPI hsorted, append_count, hfind]
    split <;> simp
  · show h.count + (VertreapTree.append key c2 q x h.root).2 =
      if (Vertreap.find key h (key x)).isSome then h.count else h.count + 1
    rw [append_count]
    simp only [Vertreap.find]
    split <;> simp

theorem reach_invariant {c : Nat} {hs : List (Vertreap It P)}
    (hr : Reach key c hs) :
    c < U64LIMIT ∧ (∀ h ∈ hs, GoodHandle key h c) ∧
    hs.Pairwise (fun a b => b.version < a.version) := by
  induction hr with
  | init =>
    refine ⟨?_, ?_, ?_⟩
    · exact Nat.pos_pow_of_pos 64 (by norm_num)
    · intro h hmem
      rw [List.mem_singleton] at hmem
      subst hmem
      exact ⟨⟨trivial, trivial, trivial, trivial⟩, le_refl 0, rfl⟩
    · simp
  | app hr0 hmem hap ih =>
    obtain ⟨hcL, hall, hpw⟩ := ih
    have hg := hall _ hmem
    obtain ⟨hceq, hc2L, hg2, hv2, _, _⟩ := appendWithPriority_good hg hcL hap
    refine ⟨hc2L, ?_, ?_⟩
    · intro h' hmem'
      rcases List.mem_cons.mp hmem' with rfl | hmem'
      · exact hg2
      · exact goodHandle_mono (hall _ hmem') (by rw [hceq]; exact Nat.le_succ _)
    · refine List.pairwise_cons.mpr ⟨?_, hpw⟩
      intro h' hmem'
      have := (hall _ hmem').2.1
      rw [hv2, hceq]
      exact lt_of_le_of_lt this (Nat.lt_succ_self _)

end HandleLemmas

/-! ### Iterator lemmas -/

section IterLemmas

variable {It P : Type}

theorem flattenStack_pushLeftSpine (t : VertreapTree It P)
    (st : List (VertreapTree It P)) :
    VertreapIter.flattenStack (VertreapIter.pushLeftSpine t st) =
      t.inorderNodes ++ VertreapIter.flattenStack st := by
  induction t generalizing st with
  | nil => simp [VertreapIter.pushLeftSpine, VertreapTree.inorderNodes]
  | node v p i l r ihl ihr =>
    simp only [VertreapIter.pushLeftSpine, VertreapTree.inorderNodes]
    rw [ihl]
    simp [VertreapIter.flattenStack, VertreapTree.rightT]

theorem pushLeftSpine_inv {t : VertreapTree It P}
    {st : List (VertreapTree It P)} (h : ∀ e ∈ st, e ≠ VertreapTree.nil) :
    ∀ e ∈ VertreapIter.pushLeftSpine t st, e ≠ VertreapTree.nil := by
  induction t generalizing st with
  | nil => exact h
  | node v p i l r ihl ihr =>
    simp only [VertreapIter.pushLeftSpine]
    apply ihl
    intro e he
    rcases List.mem_cons.mp he with rfl | he
    · simp
    · exact h e he

theorem step_remaining (it : VertreapIter It P) (hinv : it.inv) :
    (VertreapIter.remaining it = [] →
      (it.step).1 = none ∧ VertreapIter.remaining (it.step).2 = [] ∧
      (it.step).2.inv) ∧
    (∀ nd rest, VertreapIter.remaining it = nd :: rest →
      (it.step).1 = some nd ∧ VertreapIter.remaining (it.step).2 = rest ∧
      (it.step).2.inv) := by
  by_cases hd : it.done = true
  · constructor
    · intro _
      refine ⟨by simp [VertreapIter.step, hd], ?_, ?_⟩
      · simp [VertreapIter.step, hd, VertreapIter.remaining]
      · simpa [VertreapIter.step, hd] using hinv
    · intro nd rest hrem
      rw [VertreapIter.remaining, if_pos hd] at hrem
      exact absurd hrem (by simp)
  · have hrem0 : VertreapIter.remaining it =
        VertreapIter.flattenStack
          (VertreapIter.pushLeftSpine it.next it.stack) := by
      rw [VertreapIter.remaining, if_neg hd, flattenStack_pushLeftSpine]
    cases hpush : VertreapIter.pushLeftSpine it.next it.stack with
    | nil =>
      rw [hpush] at hrem0
      constructor
      · intro _
        refine ⟨?_, ?_, ?_⟩
        · simp [VertreapIter.step, hd, hpush]
        · simp [VertreapIter.step, hd, hpush, VertreapIter.remaining]
        · simp [VertreapIter.step, hd, hpush, VertreapIter.inv]
      · intro nd rest hrem
        rw [hrem0] at hrem
        exact absurd hrem (by simp [VertreapIter.flattenStack])
    | cons top rest' =>
      rw [hpush] at hrem0
      have hstep : it.step = (some top, ⟨false, top.rightT, rest'⟩) := by
        simp [VertreapIter.step, hd, hpush]
      have hmemrest : ∀ e ∈ rest', e ≠ VertreapTree.nil := by
        intro e he
        exact pushLeftSpine_inv hinv e (hpush ▸ List.mem_cons_of_mem _ he)
      constructor
      · intro hrem
        rw [hrem0] at hrem
        exact absurd hrem (by simp [VertreapIter.flattenStack])
      · intro nd rest hrem
        rw [hrem0] at hrem
        simp only [VertreapIter.flattenStack, List.cons_append,
          List.cons.injEq] at hrem
        obtain ⟨rfl, hrest⟩ := hrem
        refine ⟨by rw [hstep], ?_, ?_⟩
        · rw [hstep]
          simpa [VertreapIter.remaining] using hrest
        · rw [hstep]
          exact hmemrest

theorem drain_eq_remaining (fuel : Nat) :
    ∀ it : VertreapIter It P, it.inv →
      VertreapIter.drain fuel it = (VertreapIter.remaining it).take fuel := by
  induction fuel with
  | zero => simp [VertreapIter.drain]
  | succ n ih =>
    intro it hinv
    rcases hstep : it.step with ⟨res, it2⟩
    cases hrem : VertreapIter.remaining it with
    | nil =>
      obtain ⟨h1, h2, h3⟩ := (step_remaining it hinv).1 hrem
      rw [hstep] at h1
      simp only at h1
      subst h1
      simp [VertreapIter.drain, hstep]
    | cons nd rest =>
      obtain ⟨h1, h2, h3⟩ := (step_remaining it hinv).2 nd rest hrem
      rw [hstep] at h1 h2 h3
      simp only at h1 h2 h3
      subst h1
      simp only [VertreapIter.drain, hstep]
      rw [ih it2 h3, h2, List.take_succ_cons]

theorem nodeItems_append (l1 l2 : List (VertreapTree It P)) :
    nodeItems (l1 ++ l2) = nodeItems l1 ++ nodeItems l2 := by
  induction l1 with
  | nil => simp [nodeItems]
  | cons t rest ih => cases t <;> simp [nodeItems, ih]

theorem nodeItems_inorderNodes (t : VertreapTree It P) :
    nodeItems t.inorderNodes = t.inorderItems := by
  induction t with
  | nil =>
    simp [VertreapTree.inorderNodes, VertreapTree.inorderItems,
      VertreapTree.inorderPI, nodeItems]
  | node v p i l r ihl ihr =>
    simp only [VertreapTree.inorderNodes, nodeItems_append, nodeItems, ihl, ihr]
    simp [VertreapTree.inorderItems, VertreapTree.inorderPI]

theorem length_inorderNodes (t : VertreapTree It P) :
    t.inorderNodes.length = t.inorderPI.length := by
  induction t with
  | nil => rfl
  | node v p i l r ihl ihr =>
    simp [VertreapTree.inorderNodes, VertreapTree.inorderPI, ihl, ihr]

theorem length_inorderNodes_numNodes (t : VertreapTree It P) :
    t.inorderNodes.length = t.numNodes := by
  induction t with
  | nil => rfl
  | node v p i l r ihl ihr =>
    simp only [VertreapTree.inorderNodes, VertreapTree.numNodes,
      List.length_append, List.length_cons, ihl, ihr]
    omega

theorem iterItems_eq {h : Vertreap It P} :
    h.iterItems = h.root.inorderItems := by
  rw [Vertreap.iterItems,
    drain_eq_remaining (h.root.numNodes + 1) (VertreapIter.new h.root)
      (by intro e he; simp [VertreapIter.new] at he)]
  simp only [VertreapIter.remaining, VertreapIter.new, VertreapIter.flattenStack,
    if_neg (by simp : ¬(false = true)), List.append_nil]
  rw [List.take_of_length_le
    (by rw [length_inorderNodes_numNodes]; exact Nat.le_succ _)]
  exact nodeItems_inorderNodes h.root

theorem step_done_fix (it : VertreapIter It P) (hd : it.done = true) :
    it.step = (none, it) := by
  simp [VertreapIter.step, hd]

theorem step_none_done (it : VertreapIter It P) (h : (it.step).1 = none) :
    (it.step).2.done = true := by
  by_cases hd : it.done = true
  · simpa [VertreapIter.step, hd] using hd
  · simp only [VertreapIter.step, hd, if_neg] at h ⊢
    cases hpush : VertreapIter.pushLeftSpine it.next it.stack with
    | nil => simp [hpush]
    | cons top rest =>
      rw [hpush] at h
      simp at h

end IterLemmas

/-! ### Linear-run lemmas -/

section RunLemmas

variable {It P K : Type} [LinearOrder K] [LinearOrder P] {key : It → K}

theorem foldl_runStep_none (ops : List (P × It)) :
    ops.foldl (runStep key) none = none := by
  induction ops with
  | nil => rfl
  | cons op rest ih => simpa [runStep] using ih

theorem find_after_append {t : Vertreap It P} {c : Nat} {q : P} {x : It}
    {t2 : Vertreap It P} {c2 : Nat} (hbst : t.root.isBST key)
    (hap : Vertreap.appendWithPriority key t c q x = some (t2, c2)) (k : K) :
    Vertreap.find key t2 k =
      if key x = k then some x else Vertreap.find key t k := by
  obtain ⟨-, -, -, hh2⟩ := appendWithPriority_some_inv hap
  subst hh2
  have hsorted := isBST_iff_sortedPI.mp hbst
  have hpi : (t.root.append key c2 q x).1.inorderPI =
      listInsertPI key q x t.root.inorderPI := append_inorderPI hbst
  have hbst2 : (t.root.append key c2 q x).1.isBST key := by
    rw [isBST_iff_sortedPI, hpi]
    exact sorted_listInsertPI hsorted
  show (t.root.append key c2 q x).1.find key k = _
  rw [find_eq_find?PI hbst2, hpi]
  by_cases hxk : key x = k
  · subst hxk
    rw [if_pos rfl]
    cases hf : t.root.inorderPI.find? (fun e => decide (key e.2 = key x)) with
    | none => rw [find?_listInsertPI_absent hf]; rfl
    | some e => rw [find?_listInsertPI_present hsorted hf]; rfl
  · rw [if_neg hxk, find?_listInsertPI_ne (fun h2 => hxk h2.symm),
      Vertreap.find, find_eq_find?PI hbst]

theorem prioAt_after_append {t : Vertreap It P} {c : Nat} {q : P} {x : It}
    {t2 : Vertreap It P} {c2 : Nat} (hbst : t.root.isBST key)
    (hap : Vertreap.appendWithPriority key t c q x = some (t2, c2)) (k : K) :
    t2.root.prioAt key k =
      match t.root.prioAt key k with
      | some p => some p
      | none => if key x = k then some q else none := by
  obtain ⟨-, -, -, hh2⟩ := appendWithPriority_some_inv hap
  subst hh2
  have hsorted := isBST_iff_sortedPI.mp hbst
  have hpi : (t.root.append key c2 q x).1.inorderPI =
      listInsertPI key q x t.root.inorderPI := append_inorderPI hbst
  show (t.root.append key c2 q x).1.prioAt key k = _
  rw [VertreapTree.prioAt, hpi, VertreapTree.prioAt]
  by_cases hxk : key x = k
  · subst hxk
    cases hf : t.root.inorderPI.find? (fun e => decide (key e.2 = key x)) with
    | none => rw [find?_listInsertPI_absent hf]; simp
    | some e => rw [find?_listInsertPI_present hsorted hf]; simp [hf]
  · rw [find?_listInsertPI_ne (fun h2 => hxk h2.symm)]
    cases t.root.inorderPI.find? (fun e => decide (key e.2 = k)) with
    | none => simp [hxk]
    | some e => simp

theorem run_sound (ops : List (P × It)) :
    ∀ (t : Vertreap It P) (c : Nat), GoodHandle key t c → c < U64LIMIT →
    ∀ {t' : Vertreap It P} {c' : Nat},
    ops.foldl (runStep key) (some (t, c)) = some (t', c') →
    GoodHandle key t' c' ∧ c' < U64LIMIT ∧
    (∀ k, Vertreap.find key t' k =
      ops.foldl (fun acc op => if key op.2 = k then some op.2 else acc)
        (Vertreap.find key t k)) ∧
    (∀ k, t'.root.prioAt key k =
      ops.foldl
        (fun acc op =>
          match acc with
          | some p => some p
          | none => if key op.2 = k then some op.1 else none)
        (t.root.prioAt key k)) := by
  induction ops with
  | nil =>
    intro t c hg hcL t' c' hrun
    simp only [List.foldl_nil, Option.some_inj] at hrun
    obtain ⟨rfl, rfl⟩ := Prod.mk.injEq _ _ _ _ ▸ hrun
    exact ⟨hg, hcL, fun k => rfl, fun k => rfl⟩
  | cons op rest ih =>
    intro t c hg hcL t' c' hrun
    obtain ⟨q, x⟩ := op
    rw [List.foldl_cons] at hrun
    cases hap : Vertreap.appendWithPriority key t c q x with
    | none =>
      rw [runStep, hap, foldl_runStep_none] at hrun
      exact absurd hrun (by simp)
    | some r =>
      obtain ⟨t2, c2⟩ := r
      rw [runStep, hap] at hrun
      obtain ⟨hceq, hc2L, hg2, -, -, -⟩ := appendWithPriority_good hg hcL hap
      obtain ⟨hg', hcL', hfind, hprio⟩ := ih t2 c2 hg2 hc2L hrun
      refine ⟨hg', hcL', ?_, ?_⟩
      · intro k
        rw [hfind k, List.foldl_cons, find_after_append hg.1.1 hap k]
      · intro k
        rw [hprio k, List.foldl_cons, prioAt_after_append hg.1.1 hap k]

end RunLemmas

section LookupLemmas

variable {It P K : Type} [LinearOrder K] [LinearOrder P] {key : It → K}

theorem foldl_lastwrite_isSome (k : K) (ops : List (P × It)) (acc : Option It) :
    (ops.foldl (fun acc op => if key op.2 = k then some op.2 else acc)
      acc).isSome =
      (acc.isSome || ops.any fun op => decide (key op.2 = k)) := by
  induction ops generalizing acc with
  | nil => simp
  | cons op rest ih =>
    rw [List.foldl_cons, ih]
    by_cases hop : key op.2 = k
    · simp [hop]
    · simp [hop]

end LookupLemmas

/-! ### The claims -/

/-- C1: for every handle built from an empty collection by a (non-trapping)
sequence of `append_with_priority` calls, `find k` returns exactly the item of
the most recent append whose key is `k` (so it succeeds iff some append with
that key occurred, and fails for every key never inserted), and the Set
façade's `contains` is `find(key).is_some()`. -/
theorem c1_find_round_trip {It P K : Type} [LinearOrder K] [LinearOrder P]
    (key : It → K) (ops : List (P × It)) {t : Vertreap It P} {c : Nat}
    (hrun : runAppends key ops = some (t, c)) :
    (∀ k, Vertreap.find key t k = lookupLast key ops k) ∧
    (∀ k, (Vertreap.find key t k).isSome ↔ ∃ op ∈ ops, key op.2 = k) ∧
    (∀ (K2 P2 : Type) [LinearOrder K2] (s : VertreapSet K2 P2) (k2 : K2),
      VertreapSet.contains s k2 = (Vertreap.find id s.vtreap k2).isSome) := by
  have hg0 : GoodHandle key (Vertreap.empty : Vertreap It P) 0 :=
    ⟨⟨trivial, trivial, trivial, trivial⟩, le_refl 0, rfl⟩
  have hcL0 : (0 : Nat) < U64LIMIT := Nat.pos_pow_of_pos 64 (by norm_num)
  rw [runAppends] at hrun
  obtain ⟨hg, hcL, hfind, hprio⟩ := run_sound ops Vertreap.empty 0 hg0 hcL0 hrun
  have hmain : ∀ k, Vertreap.find key t k = lookupLast key ops k := by
    intro k
    rw [lookupLast]
    have := hfind k
    rwa [show Vertreap.find key (Vertreap.empty : Vertreap It P) k = none
      from rfl] at this
  refine ⟨hmain, ?_, ?_⟩
  · intro k
    rw [hmain k, lookupLast, foldl_lastwrite_isSome]
    simp
  · intro K2 P2 inst s k2
    rfl

/-- C1 witness: one concrete run. -/
theorem c1_find_round_trip_witness :
    Vertreap.find (@id Nat)
        (⟨1, 1, VertreapTree.node 1 5 3 .nil .nil⟩ : Vertreap Nat Nat) 3 =
      lookupLast id [((5 : Nat), (3 : Nat))] 3 := by
  have hrun : runAppends (@id Nat) [((5 : Nat), (3 : Nat))] =
      some (⟨1, 1, VertreapTree.node 1 5 3 .nil .nil⟩, 1) := by decide
  exact (c1_find_round_trip id [(5, 3)] hrun).1 3

/-- C2: every handle reachable from the empty collection through the public
append API has a strictly key-sorted in-order traversal (both as the item
list its iterator yields and as the structural BST invariant at every
reachable node). -/
theorem c2_inorder_strictly_increasing {It P K : Type} [LinearOrder K]
    [LinearOrder P] (key : It → K) {c : Nat} {hs : List (Vertreap It P)}
    (hr : Reach key c hs) {h : Vertreap It P} (hmem : h ∈ hs) :
    List.Pairwise (· < ·) ((Vertreap.iterItems h).map key) ∧
    h.root.isBST key := by
  obtain ⟨hcL, hall, hpw⟩ := reach_invariant hr
  obtain ⟨⟨hbst, _, _, _⟩, _, hcnt⟩ := hall h hmem
  refine ⟨?_, hbst⟩
  rw [iterItems_eq, VertreapTree.inorderItems, List.map_map]
  exact List.pairwise_map.mpr (isBST_iff_sortedPI.mp hbst)

/-- C2 witness: a concrete two-handle lineage. -/
theorem c2_inorder_strictly_increasing_witness :
    List.Pairwise (· < ·)
      ((Vertreap.iterItems
        (⟨1, 1, VertreapTree.node 1 5 3 .nil .nil⟩ : Vertreap Nat Nat)).map
          (@id Nat)) ∧
    (VertreapTree.node 1 5 3 .nil .nil : VertreapTree Nat Nat).isBST id := by
  have h0 : Reach (@id Nat) 0 [(Vertreap.empty : Vertreap Nat Nat)] := Reach.init
  have happ : Vertreap.appendWithPriority (@id Nat)
      (Vertreap.empty : Vertreap Nat Nat) 0 5 3 =
      some (⟨1, 1, VertreapTree.node 1 5 3 .nil .nil⟩, 1) := by decide
  have h1 : Reach (@id Nat) 1
      [⟨1, 1, VertreapTree.node 1 5 3 .nil .nil⟩, Vertreap.empty] :=
    Reach.app h0 (List.mem_singleton.mpr rfl) happ
  exact c2_inorder_strictly_increasing id h1 (List.mem_cons_self _ _)

/-- C3: every handle reachable from the empty collection through the public
append API satisfies the max-heap priority invariant at every reachable node
(children priorities `≤` the parent's; equality allowed). -/
theorem c3_heap_property {It P K : Type} [LinearOrder K] [LinearOrder P]
    (key : It → K) {c : Nat} {hs : List (Vertreap It P)} (hr : Reach key c hs)
    {h : Vertreap It P} (hmem : h ∈ hs) : h.root.isHeap := by
  obtain ⟨hcL, hall, hpw⟩ := reach_invariant hr
  exact (hall h hmem).1.2.1

/-- C3 witness: a concrete two-handle lineage. -/
theorem c3_heap_property_witness :
    (VertreapTree.node 1 5 3 .nil .nil : VertreapTree Nat Nat).isHeap := by
  have h0 : Reach (@id Nat) 0 [(Vertreap.empty : Vertreap Nat Nat)] := Reach.init
  have happ : Vertreap.appendWithPriority (@id Nat)
      (Vertreap.empty : Vertreap Nat Nat) 0 5 3 =
      some (⟨1, 1, VertreapTree.node 1 5 3 .nil .nil⟩, 1) := by decide
  have h1 : Reach (@id Nat) 1
      [⟨1, 1, VertreapTree.node 1 5 3 .nil .nil⟩, Vertreap.empty] :=
    Reach.app h0 (List.mem_singleton.mpr rfl) happ
  exact c3_heap_property id h1 (List.mem_cons_self _ _)

/-- C4: one public append against a lineage state only publishes one new
handle and advances the shared counter; every previously issued handle is
left in place with its version, count, `find` results and `iter` output
untouched. -/
theorem c4_persistence_frame {It P K : Type} [LinearOrder K] [LinearOrder P]
    (key : It → K) {c : Nat} {hs hs2 : List (Vertreap It P)} {idx : Nat}
    {q : P} {x : It} {c2 : Nat}
    (hstep : stepAppend key c hs idx q x = some (c2, hs2)) :
    (∃ h2, hs2 = h2 :: hs) ∧ c2 = (c + 1) % U64LIMIT ∧ c2 ≠ 0 ∧
    (∀ j, hs2[j + 1]? = hs[j]?) ∧
    (∀ j h, hs[j]? = some h →
      ∃ h', hs2[j + 1]? = some h' ∧ h'.version = h.version ∧
        h'.count = h.count ∧
        (∀ k, Vertreap.find key h' k = Vertreap.find key h k) ∧
        Vertreap.iterItems h' = Vertreap.iterItems h) := by
  cases hidx : hs[idx]? with
  | none => simp [stepAppend, hidx] at hstep
  | some h0 =>
    simp only [stepAppend, hidx] at hstep
    cases hap : Vertreap.appendWithPriority key h0 c q x with
    | none => simp [hap] at hstep
    | some r =>
      obtain ⟨hnew, cnew⟩ := r
      simp only [hap, Option.map_some', Option.some_inj, Prod.mk.injEq]
        at hstep
      obtain ⟨hc2, hhs2⟩ := hstep
      subst hc2
      subst hhs2
      obtain ⟨hceq, hnz, hver, hh2⟩ := appendWithPriority_some_inv hap
      refine ⟨⟨hnew, rfl⟩, hceq, hnz, ?_, ?_⟩
      · intro j
        exact List.getElem?_cons_succ
      · intro j h hj
        exact ⟨h, by rw [List.getElem?_cons_succ]; exact hj, rfl, rfl,
          fun k => rfl, rfl⟩

/-- C4 witness: one concrete step. -/
theorem c4_persistence_frame_witness :
    stepAppend (@id Nat) 0 [(Vertreap.empty : Vertreap Nat Nat)] 0 5 3 =
      some (1, [⟨1, 1, VertreapTree.node 1 5 3 .nil .nil⟩, Vertreap.empty]) ∧
    (1 : Nat) = (0 + 1) % U64LIMIT ∧ (1 : Nat) ≠ 0 := by
  have hyp : stepAppend (@id Nat) 0 [(Vertreap.empty : Vertreap Nat Nat)] 0 5 3 =
      some (1, [⟨1, 1, VertreapTree.node 1 5 3 .nil .nil⟩, Vertreap.empty]) := by
    decide
  exact ⟨hyp, (c4_persistence_frame id hyp).2.1, (c4_persistence_frame id hyp).2.2.1⟩

/-- C5: for every reachable handle, `len` equals the number of items its
iterator yields; a successful append of a key not already present yields a
handle whose count is one more, and of an already-present key a handle with
the same count. -/
theorem c5_count_correct {It P K : Type} [LinearOrder K] [LinearOrder P]
    (key : It → K) {c : Nat} {hs : List (Vertreap It P)} (hr : Reach key c hs)
    {h : Vertreap It P} (hmem : h ∈ hs) :
    h.len = (Vertreap.iterItems h).length ∧
    (∀ q x h2 c2, Vertreap.appendWithPriority key h c q x = some (h2, c2) →
      h2.len = if (Vertreap.find key h (key x)).isSome then h.len
        else h.len + 1) := by
  obtain ⟨hcL, hall, hpw⟩ := reach_invariant hr
  have hg := hall h hmem
  constructor
  · rw [Vertreap.len, iterItems_eq, VertreapTree.inorderItems,
      List.length_map]
    exact hg.2.2
  · intro q x h2 c2 hap
    exact (appendWithPriority_good hg hcL hap).2.2.2.2.2

/-- C5 witness: the empty handle and one insert of a fresh key. -/
theorem c5_count_correct_witness :
    (Vertreap.empty : Vertreap Nat Nat).len =
      (Vertreap.iterItems (Vertreap.empty : Vertreap Nat Nat)).length ∧
    (⟨1, 1, VertreapTree.node 1 5 3 .nil .nil⟩ : Vertreap Nat Nat).len =
      (if (Vertreap.find (@id Nat) (Vertreap.empty : Vertreap Nat Nat)
          3).isSome
        then (Vertreap.empty : Vertreap Nat Nat).len
        else (Vertreap.empty : Vertreap Nat Nat).len + 1) := by
  have h := c5_count_correct (@id Nat)
    (Reach.init : Reach (@id Nat) 0 [(Vertreap.empty : Vertreap Nat Nat)])
    (List.mem_singleton.mpr rfl)
  have happ : Vertreap.appendWithPriority (@id Nat)
      (Vertreap.empty : Vertreap Nat Nat) 0 5 3 =
      some (⟨1, 1, VertreapTree.node 1 5 3 .nil .nil⟩, 1) := by decide
  exact ⟨h.1, h.2 5 3 ⟨1, 1, VertreapTree.node 1 5 3 .nil .nil⟩ 1 happ⟩

/-- C7: in any reachable lineage state (newest handle first), the issued
version stamps are strictly decreasing down the list — each append's stamp
strictly exceeds every stamp issued before it, from whichever branch — and
inside every reachable handle each node's children carry versions `≤` its
own. -/
theorem c7_version_monotonic {It P K : Type} [LinearOrder K] [LinearOrder P]
    (key : It → K) {c : Nat} {hs : List (Vertreap It P)}
    (hr : Reach key c hs) :
    hs.Pairwise (fun a b => b.version < a.version) ∧
    ∀ h ∈ hs, h.root.versionsOK := by
  obtain ⟨hcL, hall, hpw⟩ := reach_invariant hr
  exact ⟨hpw, fun h hmem => (hall h hmem).1.2.2.1⟩

/-- C7 witness: a concrete two-handle lineage. -/
theorem c7_version_monotonic_witness :
    ([⟨1, 1, VertreapTree.node 1 5 3 .nil .nil⟩, Vertreap.empty] :
        List (Vertreap Nat Nat)).Pairwise
      (fun a b => b.version < a.version) := by
  have h0 : Reach (@id Nat) 0 [(Vertreap.empty : Vertreap Nat Nat)] := Reach.init
  have happ : Vertreap.appendWithPriority (@id Nat)
      (Vertreap.empty : Vertreap Nat Nat) 0 5 3 =
      some (⟨1, 1, VertreapTree.node 1 5 3 .nil .nil⟩, 1) := by decide
  have h1 : Reach (@id Nat) 1
      [⟨1, 1, VertreapTree.node 1 5 3 .nil .nil⟩, Vertreap.empty] :=
    Reach.app h0 (List.mem_singleton.mpr rfl) happ
  exact (c7_version_monotonic id h1).1

/-- C6: overwriting a key that is already present leaves that key's stored
priority exactly what it was — which, over the whole run from the empty
collection, is the priority supplied at the key's first insertion; the newly
supplied priority is discarded, the shape of the tree (the key's node's
position) is unchanged, and the count is unchanged. -/
theorem c6_priority_stable {It P K : Type} [LinearOrder K] [LinearOrder P]
    (key : It → K) {ops : List (P × It)} {t : Vertreap It P} {c : Nat}
    (hrun : runAppends key ops = some (t, c)) {x : It}
    (hpres : (Vertreap.find key t (key x)).isSome) (q2 : P)
    {t2 : Vertreap It P} {c2 : Nat}
    (hap : Vertreap.appendWithPriority key t c q2 x = some (t2, c2)) :
    t2.root.prioAt key (key x) = firstPrio key ops (key x) ∧
    t.root.prioAt key (key x) = firstPrio key ops (key x) ∧
    t2.root.shape = t.root.shape ∧
    t2.count = t.count := by
  have hg0 : GoodHandle key (Vertreap.empty : Vertreap It P) 0 :=
    ⟨⟨trivial, trivial, trivial, trivial⟩, le_refl 0, rfl⟩
  have hcL0 : (0 : Nat) < U64LIMIT := Nat.pos_pow_of_pos 64 (by norm_num)
  rw [runAppends] at hrun
  obtain ⟨hg, hcL, hfind, hprio⟩ := run_sound ops Vertreap.empty 0 hg0 hcL0 hrun
  have hbst := hg.1.1
  have hheap := hg.1.2.1
  have hTprio : t.root.prioAt key (key x) = firstPrio key ops (key x) := by
    have h2 := hprio (key x)
    rw [show (Vertreap.empty : Vertreap It P).root.prioAt key (key x) = none
      from rfl] at h2
    rw [firstPrio]
    exact h2
  have hps : ∃ p0, t.root.prioAt key (key x) = some p0 := by
    rw [Vertreap.find, find_eq_find?PI hbst] at hpres
    cases hf : t.root.inorderPI.find? (fun e => decide (key e.2 = key x)) with
    | none =>
      rw [hf] at hpres
      simp at hpres
    | some e =>
      refine ⟨e.1, ?_⟩
      rw [VertreapTree.prioAt, hf]
      rfl
  obtain ⟨p0, hp0⟩ := hps
  have hstep := prioAt_after_append hbst hap (key x)
  simp only [hp0] at hstep
  have hpres' : t.root.find key (key x) ≠ none := by
    rw [Vertreap.find] at hpres
    intro hnone
    rw [hnone] at hpres
    simp at hpres
  have hcount := (appendWithPriority_good hg hcL hap).2.2.2.2.2
  rw [if_pos hpres] at hcount
  obtain ⟨-, -, -, hh2⟩ := appendWithPriority_some_inv hap
  have hupd := append_update c2 q2 x t.root hbst hheap hpres'
  refine ⟨?_, hTprio, ?_, ?_⟩
  · rw [hstep, ← hp0]
    exact hTprio
  · rw [hh2]
    exact hupd.1
  · exact hcount

/-- C6 witness: insert key 3 with priority 5, then overwrite it with
priority 9. -/
theorem c6_priority_stable_witness :
    (VertreapTree.node 2 5 3 .nil .nil : VertreapTree Nat Nat).prioAt id 3 =
      firstPrio id [((5 : Nat), (3 : Nat))] 3 ∧
    (VertreapTree.node 1 5 3 .nil .nil : VertreapTree Nat Nat).prioAt id 3 =
      firstPrio id [((5 : Nat), (3 : Nat))] 3 ∧
    (VertreapTree.node 2 5 3 .nil .nil : VertreapTree Nat Nat).shape =
      (VertreapTree.node 1 5 3 .nil .nil : VertreapTree Nat Nat).shape ∧
    (⟨2, 1, VertreapTree.node 2 5 3 .nil .nil⟩ : Vertreap Nat Nat).count =
      (⟨1, 1, VertreapTree.node 1 5 3 .nil .nil⟩ : Vertreap Nat Nat).count := by
  have hrun : runAppends (@id Nat) [((5 : Nat), (3 : Nat))] =
      some (⟨1, 1, VertreapTree.node 1 5 3 .nil .nil⟩, 1) := by decide
  have hpres : (Vertreap.find (@id Nat)
      (⟨1, 1, VertreapTree.node 1 5 3 .nil .nil⟩ : Vertreap Nat Nat)
      (id 3)).isSome := by decide
  have hap : Vertreap.appendWithPriority (@id Nat)
      (⟨1, 1, VertreapTree.node 1 5 3 .nil .nil⟩ : Vertreap Nat Nat) 1 9 3 =
      some (⟨2, 1, VertreapTree.node 2 5 3 .nil .nil⟩, 2) := by decide
  exact c6_priority_stable id hrun hpres 9 hap

/-- C8: an append against a lineage counter holding `u64::MAX` traps
(`assert!(new_version != 0)` after the wrapping increment) instead of
returning a handle; for every smaller counter value the increment check
passes, and (for any handle whose stamp is `≤` the counter, as all lineage
handles are) the append returns a handle. -/
theorem c8_version_overflow_trap {It P K : Type} [LinearOrder K]
    [LinearOrder P] (key : It → K) (h : Vertreap It P) (q : P) (x : It)
    (c : Nat) :
    Vertreap.appendWithPriority key h (U64LIMIT - 1) q x = none ∧
    (c + 1 < U64LIMIT →
      ((c + 1) % U64LIMIT ≠ 0 ∧
       (h.version ≤ c →
         ∃ r, Vertreap.appendWithPriority key h c q x = some r))) := by
  constructor
  · have hpos : 0 < U64LIMIT := Nat.pos_pow_of_pos 64 (by norm_num)
    have hmod : (U64LIMIT - 1 + 1) % U64LIMIT = 0 := by
      rw [Nat.sub_add_cancel hpos, Nat.mod_self]
    simp only [Vertreap.appendWithPriority]
    rw [if_pos hmod]
  · intro hlt
    have hmod : (c + 1) % U64LIMIT = c + 1 := Nat.mod_eq_of_lt hlt
    refine ⟨by rw [hmod]; exact Nat.succ_ne_zero c, ?_⟩
    intro hver
    exact appendWithPriority_none_ge (by rw [hmod]; exact Nat.succ_ne_zero c)
      (by rw [hmod]; exact Nat.lt_succ_of_le hver)

/-- C8 witness: the trap at `u64::MAX` and a successful append at counter 0. -/
theorem c8_version_overflow_trap_witness :
    Vertreap.appendWithPriority (@id Nat) (Vertreap.empty : Vertreap Nat Nat)
        (U64LIMIT - 1) 5 3 = none ∧
    ∃ r, Vertreap.appendWithPriority (@id Nat)
        (Vertreap.empty : Vertreap Nat Nat) 0 5 3 = some r := by
  have h := c8_version_overflow_trap (@id Nat)
    (Vertreap.empty : Vertreap Nat Nat) 5 3 0
  exact ⟨h.1, (h.2 (by norm_num [U64LIMIT])).2 (le_refl 0)⟩

/-- C9 counterexample: the claim fails on the Set façade.  `VertreapSet`
stores no priority generator (its only field is the backing treap), so no
constructor can configure the keyed-hash strategy for it: the spec-modelled
`SetKeyedHashAvailable` is refuted because the code's `VertreapSet::append`
always takes its priority from the thread-local RNG draw made at call time
(here the draw 8 lands as the priority instead of `hash 0 = 7`). -/
theorem c9_counterexample : ¬ SetKeyedHashAvailable := by
  rintro ⟨mk, hempty, hspec⟩
  have hv : (mk (fun _ => 7)).vtreap = Vertreap.empty := hempty _
  have happ : (mk (fun _ => 7)).append 0 ⟨fun _ => 8, 0⟩ 0 =
      some (⟨⟨1, 1, VertreapTree.node 1 8 0 .nil .nil⟩⟩, ⟨fun _ => 8, 1⟩, 1) := by
    simp only [VertreapSet.append, VertreapSet.appendWithRng,
      VertreapSet.appendWithPriority, ModelRng.sample, hv]
    have hcore : Vertreap.appendWithPriority (@id Nat)
        (Vertreap.empty : Vertreap Nat Nat) 0 8 0 =
        some (⟨1, 1, VertreapTree.node 1 8 0 .nil .nil⟩, 1) := by decide
    rw [hcore]
    rfl
  have hres := hspec (fun _ => 7) 0 ⟨fun _ => 8, 0⟩ _ _ _ happ
  have h8 : ((⟨⟨1, 1, VertreapTree.node 1 8 0 .nil .nil⟩⟩ :
      VertreapSet Nat Nat)).vtreap.root.prioAt id 0 = some 8 := by decide
  rw [h8] at hres
  simp at hres

/-- C9 (amended): on the Map façade every `append` obtains its priority from
the `KeyedGenerator` configured at construction, and all three generator
constructors (thread-local-random, explicit-RNG-backed, keyed-hash-backed)
exist there; the Set façade stores no generator at all — a `VertreapSet` is
nothing but its backing treap, its `append` delegates to `append_with_rng` on
the thread-local RNG, and `append_with_rng` takes its priority from the RNG
supplied at call time. -/
theorem c9_generator_plumbing {K V P : Type} [LinearOrder K] [LinearOrder P]
    (m : VertreapMap K V P) (c : Nat) (k : K) (v : V) (tr : ModelRng P)
    (r : ModelRng P) (hash : K → P) (s : VertreapSet K P) (rng : ModelRng P) :
    (VertreapMap.newWithThreadRng : VertreapMap K V P).state =
      KeyedGen.threadRng ∧
    (VertreapMap.newWithRng r : VertreapMap K V P).state =
      KeyedGen.rngGen r ∧
    (VertreapMap.newWithRandomHasher hash : VertreapMap K V P).state =
      KeyedGen.randomHasher hash ∧
    m.append c k v tr =
      (m.vtreap.appendWithPriority KV.k c (m.state.makePriority k tr).1
        ⟨k, v⟩).map (fun r2 => (⟨(m.state.makePriority k tr).2.1, r2.1⟩,
          (m.state.makePriority k tr).2.1, (m.state.makePriority k tr).2.2,
          r2.2)) ∧
    s.append c tr k = s.appendWithRng c tr k ∧
    s.appendWithRng c rng k =
      (s.appendWithPriority c (rng.sample).1 k).map
        (fun y => (y.1, (rng.sample).2, y.2)) ∧
    (∀ s2 : VertreapSet K P, s2 = ⟨s2.vtreap⟩) :=
  ⟨rfl, rfl, rfl, rfl, rfl, rfl, fun _ => rfl⟩

/-- C10: the iterator is fused — as soon as one `next` call returns `None`
(including immediately, on an empty handle), every later `next` call returns
`None` as well (the state is a `done` fixed point). -/
theorem c10_iterator_fused {It P : Type} (it : VertreapIter It P)
    (h : (it.step).1 = none) (n : Nat) :
    ((VertreapIter.stepState^[n]) (it.step).2).step.1 = none := by
  have hdone : (it.step).2.done = true := step_none_done it h
  have hfix : VertreapIter.stepState (it.step).2 = (it.step).2 := by
    rw [VertreapIter.stepState, step_done_fix _ hdone]
  rw [Function.iterate_fixed hfix n, step_done_fix _ hdone]

/-- C10 witness: the fresh iterator over an empty handle yields `None` at
once and keeps yielding `None`. -/
theorem c10_iterator_fused_witness :
    ((VertreapIter.stepState^[2])
      ((VertreapIter.new (VertreapTree.nil : VertreapTree Nat Nat)).step).2).step.1
      = none :=
  c10_iterator_fused (VertreapIter.new VertreapTree.nil) rfl 2

end Pbrtree
